import Mathlib

/-
A shallow embedding of `py_entitymatching/debugblocker/debugblocker.py`
(the debug-blocker pipeline) together with proofs about the properties of
its validation, feature selection, tokenization and global token ordering.

Conventions of the embedding:
* machine integers of the Python/Cython layer are modelled as ℕ / ℤ;
* Python floats appearing as table cell contents are modelled as ℚ
  (every claim under study is about exact comparisons that are unaffected
  by binary-float rounding on the inputs used);
* Python exceptions are modelled by `Except ExcKind`;
* `sorted` in Python is a stable sort, which is modelled by
  `List.insertionSort` (a stable sort as well; two stable sorts with the
  same "comes before" relation coincide on every input).
-/

namespace DebugBlocker

/-- Kinds of Python exceptions raised by the validation code of
`debugblocker.py`: plain `AssertionError`, and the `ValueError` of
`_get_config_num`. -/
inductive ExcKind where
| assertionError
| valueError
deriving DecidableEq

/-- A pandas cell value: NaN (also covering None), a string, or a number.
Python `int`/`float`/`numpy.int64`/`numpy.float64` cells are all treated
identically by `_replace_nan_to_empty` (rounded to integer and formatted),
so a single numeric constructor over ℚ models all of them. -/
inductive Value where
| nan
| str (s : String)
| num (q : ℚ)
deriving DecidableEq

/-- Decimal digit characters of `n`, most significant first.  Structural
recursion on a fuel argument (with `n ≤ fuel`) so that the kernel can
evaluate it; `natDecCharsAux_eq_digits` below links it to `Nat.digits`. -/
def natDecCharsAux : ℕ → ℕ → List Char
| 0, _ => []
| (fuel + 1), n =>
    if n = 0 then [] else natDecCharsAux fuel (n / 10) ++ [Char.ofNat (48 + n % 10)]

/-- Decimal rendering of a natural number, as Python `str`. -/
def natDec (n : ℕ) : String := if n = 0 then "0" else ⟨natDecCharsAux n n⟩

/-- Decimal rendering of an integer, as Python `str`. -/
def intDec (i : ℤ) : String := if i < 0 then "-" ++ natDec i.natAbs else natDec i.toNat

/-- The rounding performed by Python's format `'{0:.0f}'`: round half to even. -/
def pyRound (q : ℚ) : ℤ :=
  if Int.fract q = 1 / 2 then (if 2 ∣ ⌊q⌋ then ⌊q⌋ else ⌊q⌋ + 1) else round q

/-- Embeds `_replace_nan_to_empty`: NaN becomes the empty string, numeric
values are rounded to an integer and rendered in decimal, strings pass
through (`str(field)` is the identity on a Python `str`). -/
def replace_nan_to_empty : Value → String
| .nan => ""
| .num q => intDec (pyRound q)
| .str s => s

/-- A pandas DataFrame used as an input table: a row count and the ordered
list of (column name, column values).  In a well-formed table every column
has `nrows` entries (`Table.WF`). -/
structure Table where
  nrows : ℕ
  cols : List (String × List Value)
deriving DecidableEq

/-- Well-formedness: every column holds exactly `nrows` values. -/
def Table.WF (t : Table) : Prop := ∀ c ∈ t.cols, c.2.length = t.nrows

/-- The ordered column names (`list(table.columns)`). -/
def Table.colNames (t : Table) : List String := t.cols.map Prod.fst

/-- Row `i` of a table in column order (`list(table.loc[i])`; record indices
are positional because the filtered tables keep the default RangeIndex). -/
def Table.row (t : Table) (i : ℕ) : List Value := t.cols.map fun c => c.2.getD i .nan

/-- Embeds `_get_config_num`.  `ncpus` stands for
`multiprocessing.cpu_count()`.  Note the `raise ValueError` (not
`AssertionError`) on the domain check. -/
def get_config_num (n_jobs n_configs n_total_configs ncpus : ℤ) : Except ExcKind ℤ :=
  if n_jobs = 0 ∨ n_configs = 0 ∨ n_configs < -2 then .error .valueError
  else
    let nc : ℤ :=
      if n_configs = -2 then n_total_configs
      else if n_configs = -1 then (if n_jobs < 0 then ncpus + 1 + n_jobs else n_jobs)
      else n_configs
    if nc < n_total_configs then .ok nc else .ok n_total_configs

/-- The empty-table / output-size checks at the top of `debug_blocker`
(raised as `AssertionError`). -/
def basic_checks (l_nrows r_nrows : ℕ) (output_size : ℤ) : Except ExcKind Unit :=
  if l_nrows = 0 then .error .assertionError
  else if r_nrows = 0 then .error .assertionError
  else if output_size ≤ 0 then .error .assertionError
  else .ok ()

/-- A dynamically-typed Python value, as far as `_validate_types` needs to
distinguish the types of its arguments. -/
inductive PyVal where
| pyNone
| pyBool (b : Bool)
| pyInt (n : ℤ)
| pyFloat (q : ℚ)
| pyStr (s : String)
| pyDataFrame (t : Table)
| pyList (l : List PyVal)
| pyTuple (l : List PyVal)

def PyVal.isDataFrame : PyVal → Bool
| .pyDataFrame _ => true
| _ => false

/-- `isinstance(x, int)`: in Python, `bool` is a subclass of `int`. -/
def PyVal.isInt : PyVal → Bool
| .pyInt _ => true
| .pyBool _ => true
| _ => false

def PyVal.isBool : PyVal → Bool
| .pyBool _ => true
| _ => false

def PyVal.isList : PyVal → Bool
| .pyList _ => true
| _ => false

def PyVal.isTuple : PyVal → Bool
| .pyTuple _ => true
| _ => false

/-- Modelled from the spec: `validate_object_type`
(`py_entitymatching.utils.validation_helper`, not part of this source tree)
raises an `AssertionError` when the object is not of the required type —
the spec lists all `InvalidInput` conditions as assertion-style failures.
`validate_types` below inlines each call as a type test that raises
`.assertionError` on failure. -/
def validate_object_type (check : Bool) : Except ExcKind Unit :=
  if check then .ok () else .error .assertionError

/-- The `attr_corres` check inside `_validate_types`: when not None it must
be a list, and every element of the list must be a tuple (the loop raises
on the first non-tuple). -/
def attrCorresOk : PyVal → Bool
| .pyNone => true
| .pyList pairs => pairs.all PyVal.isTuple
| _ => false

/-- Embeds `_validate_types`: the sequence of type checks on the inputs of
`debug_blocker`, in source order, ending with the `verbose` check.  Each
failing check raises an `AssertionError` and aborts the chain, which the
if-chain renders directly. -/
def validate_types (ltable rtable candidate_set output_size attr_corres verbose : PyVal) :
    Except ExcKind Unit :=
  if !ltable.isDataFrame then .error .assertionError
  else if !rtable.isDataFrame then .error .assertionError
  else if !candidate_set.isDataFrame then .error .assertionError
  else if !output_size.isInt then .error .assertionError
  else if !(attrCorresOk attr_corres) then .error .assertionError
  else if verbose.isBool then .ok () else .error .assertionError

/-- The validation stage at the head of `debug_blocker`: `_validate_types`
followed by the emptiness / output-size checks, before any table
processing.  After `validate_types` succeeds the fallback match arms are
unreachable (the tables are DataFrames and `output_size` is an `int`; a
Python `bool` output size behaves as 0 or 1). -/
def debug_blocker_checks (ltable rtable candidate_set output_size attr_corres verbose : PyVal) :
    Except ExcKind Unit := do
  _ ← validate_types ltable rtable candidate_set output_size attr_corres verbose
  match ltable, rtable, output_size with
  | .pyDataFrame lt, .pyDataFrame rt, .pyInt osize => basic_checks lt.nrows rt.nrows osize
  | .pyDataFrame lt, .pyDataFrame rt, .pyBool b =>
      basic_checks lt.nrows rt.nrows (if b then 1 else 0)
  | _, _, _ => .ok ()

/-- The non-empty test of `_get_feature_weight`:
`not pd.isnull(value) and value != ''` on the raw cell value (a non-string
cell never equals `''`). -/
def nonEmptyVal : Value → Bool
| .nan => false
| .str s => !(s == "")
| .num _ => true

/-- The weight of one column in `_get_feature_weight`: the loop over
`table[col]` collects the raw non-empty values; `value_set` is the set of
distinct raw values (no numeric coercion happens here). -/
def get_feature_weight_col (num_records : ℕ) (col_values : List Value) : ℚ :=
  let ne := col_values.filter nonEmptyVal
  let selectivity : ℚ := if ne.length = 0 then 0 else (ne.dedup.length : ℚ) / ne.length
  let non_empty_ratio : ℚ := (ne.length : ℚ) / num_records
  non_empty_ratio + selectivity

/-- Embeds `_get_feature_weight`: raises on an empty table, otherwise one
weight per column. -/
def get_feature_weight (t : Table) : Except ExcKind (List ℚ) :=
  if t.nrows = 0 then .error .assertionError
  else .ok (t.cols.map fun c => get_feature_weight_col t.nrows c.2)

/-- Modelled from the spec: the column weight as §4.1 of the spec describes
it, with numeric values coerced to their integer-rounded string form
before emptiness and distinctness are evaluated (after coercion NaN is the
empty string, so the "absent" test is `≠ ""`). -/
def spec_feature_weight_col (num_records : ℕ) (col_values : List Value) : ℚ :=
  let strs := col_values.map replace_nan_to_empty
  let ne := strs.filter fun s => !(s == "")
  let selectivity : ℚ := if ne.length = 0 then 0 else (ne.dedup.length : ℚ) / ne.length
  let non_empty_ratio : ℚ := (ne.length : ℚ) / num_records
  non_empty_ratio + selectivity

/-- The key-locating loop of `_select_features`: starts at -1 and updates on
every match, hence yields the last index whose column name equals the key. -/
def last_key_index (names : List String) (key : String) : ℤ :=
  names.enum.foldl (fun acc p => if p.2 = key then (p.1 : ℤ) else acc) (-1)

/-- The `rank_list` of `_select_features`: one `(index, weight_l * weight_r)`
pair per column position. -/
def rank_scores (lweight rweight : List ℚ) : List (ℕ × ℚ) :=
  (List.range lweight.length).map fun i => (i, lweight.getD i 0 * rweight.getD i 0)

/-- The key-entry removal of `_select_features`: one `pop` when both keys
map to the same position, otherwise two pops with the larger index first. -/
def remove_key_entries (ranks : List (ℕ × ℚ)) (lkey_index rkey_index : ℕ) : List (ℕ × ℚ) :=
  if lkey_index = rkey_index then ranks.eraseIdx lkey_index
  else if lkey_index > rkey_index then (ranks.eraseIdx lkey_index).eraseIdx rkey_index
  else (ranks.eraseIdx rkey_index).eraseIdx lkey_index

/-- The ordering used by `sorted(rank_list, key=attrgetter('weight'),
reverse=True)`: descending weight ("a comes before b"). -/
def wLe (a b : ℕ × ℚ) : Prop := b.2 ≤ a.2

instance : DecidableRel wLe := fun a b => by unfold wLe; infer_instance

instance : IsTotal (ℕ × ℚ) wLe := ⟨fun a b => le_total b.2 a.2⟩

instance : IsTrans (ℕ × ℚ) wLe := ⟨fun _ _ _ hab hbc => le_trans hbc hab⟩

/-- `SELECTED_FIELDS_UPPER_BOUND` -/
def SELECTED_FIELDS_UPPER_BOUND : ℕ := 8

/-- The list of positions removed from `List.range n` by the key-entry
pops (a helper for stating what `remove_key_entries` does to the position
list underlying `rank_list`). -/
def remove_range (n lkey_index rkey_index : ℕ) : List ℕ :=
  if lkey_index = rkey_index then (List.range n).eraseIdx lkey_index
  else if lkey_index > rkey_index then
    ((List.range n).eraseIdx lkey_index).eraseIdx rkey_index
  else ((List.range n).eraseIdx rkey_index).eraseIdx lkey_index

/-- The `rank_list` of `_select_features` after the key pops, with the
weights computed by `_get_feature_weight` on both tables. -/
def selected_ranks (ltable rtable : Table) (lkey rkey : String) : List (ℕ × ℚ) :=
  remove_key_entries
    (rank_scores (ltable.cols.map fun c => get_feature_weight_col ltable.nrows c.2)
                 (rtable.cols.map fun c => get_feature_weight_col rtable.nrows c.2))
    (last_key_index ltable.colNames lkey).toNat
    (last_key_index rtable.colNames rkey).toNat

/-- Embeds `_select_features` as an if-chain: the two key-not-found and the
schema-mismatch assertions, the two empty-table assertions raised inside
the `_get_feature_weight` calls (written here as explicit conditions, with
identical outcome), the weight-length assertion, then the key pops, the
stable descending sort and the cut at 8. -/
def select_features (ltable rtable : Table) (lkey rkey : String) : Except ExcKind (List ℕ) :=
  if ltable.colNames.length ≠ rtable.colNames.length then .error .assertionError
  else if last_key_index ltable.colNames lkey < 0 then .error .assertionError
  else if last_key_index rtable.colNames rkey < 0 then .error .assertionError
  else if ltable.nrows = 0 then .error .assertionError
  else if rtable.nrows = 0 then .error .assertionError
  else if (ltable.cols.map fun c => get_feature_weight_col ltable.nrows c.2).length ≠
          (rtable.cols.map fun c => get_feature_weight_col rtable.nrows c.2).length
    then .error .assertionError
  else .ok ((((selected_ranks ltable rtable lkey rkey).insertionSort wLe).take
      (if ((selected_ranks ltable rtable lkey rkey).insertionSort wLe).length <
          SELECTED_FIELDS_UPPER_BOUND
       then ((selected_ranks ltable rtable lkey rkey).insertionSort wLe).length
       else SELECTED_FIELDS_UPPER_BOUND)).map Prod.fst)

/-- The check on the selected feature list in `debug_blocker`
(`if len(feature_list) == 0: raise AssertionError(...)`). -/
def feature_list_guard (feature_list : List ℕ) : Except ExcKind (List ℕ) :=
  if feature_list.length = 0 then .error .assertionError else .ok feature_list

/-- The score of column position `i` (product of the two column weights),
used to state properties of `select_features`. -/
def col_score (ltable rtable : Table) (i : ℕ) : ℚ :=
  get_feature_weight_col ltable.nrows ((ltable.cols.getD i ("", [])).2) *
  get_feature_weight_col rtable.nrows ((rtable.cols.getD i ("", [])).2)

/-- The key-pair append of `_get_field_correspondence_list`: the pair
`(lkey, rkey)` is appended only when not already present. -/
def append_key_pair (lkey rkey : String) (corres : List (String × String)) :
    List (String × String) :=
  if (lkey, rkey) ∈ corres then corres else corres ++ [(lkey, rkey)]

/-- The raw correspondence list before the key append: the user list when
given and non-empty, otherwise the auto-generated one.  `auto_corres`
stands for `mg.get_attr_corres(...)['corres']`, an external collaborator
(modelled from the spec as an arbitrary list). -/
def raw_corres (attr_corres : Option (List (String × String)))
    (auto_corres : List (String × String)) : List (String × String) :=
  match attr_corres with
  | none => auto_corres
  | some l => if l.length = 0 then auto_corres else l

/-- Embeds `_get_field_correspondence_list`: in the auto branch an empty
auto list raises; then the key pair is appended when missing. -/
def get_field_correspondence_list (lkey rkey : String)
    (attr_corres : Option (List (String × String)))
    (auto_corres : List (String × String)) : Except ExcKind (List (String × String)) :=
  match attr_corres with
  | none =>
      if auto_corres.length = 0 then .error .assertionError
      else .ok (append_key_pair lkey rkey auto_corres)
  | some l =>
      if l.length = 0 then
        (if auto_corres.length = 0 then .error .assertionError
         else .ok (append_key_pair lkey rkey auto_corres))
      else .ok (append_key_pair lkey rkey l)

/-- The keep-condition of the reversed-index pop loop in
`_filter_corres_list`: a pair is removed iff both sides are numeric
(non-object dtype) and neither side is the key.  Popping at strictly
descending indices removes exactly the elements failing this predicate and
keeps the order of the rest, i.e. it is `List.filter`.
`l_is_obj`/`r_is_obj` give each column name's dtype
(`dtypes[col_dict[name]] == numpy.dtype('O')`). -/
def corres_keep (l_is_obj r_is_obj : String → Bool) (lkey rkey : String)
    (p : String × String) : Bool :=
  !(!(l_is_obj p.1) && !(r_is_obj p.2) && !(p.1 == lkey) && !(p.2 == rkey))

/-- The surviving pairs of `_filter_corres_list`. -/
def corres_survivors (l_is_obj r_is_obj : String → Bool) (lkey rkey : String)
    (corres : List (String × String)) : List (String × String) :=
  corres.filter (corres_keep l_is_obj r_is_obj lkey rkey)

/-- Embeds `_filter_corres_list`: filter, then raise when the remaining
list is the single pair `(lkey, rkey)`
(`len == 1 and corres_list[0] == (ltable_key, rtable_key)`). -/
def filter_corres_list (l_is_obj r_is_obj : String → Bool) (lkey rkey : String)
    (corres : List (String × String)) : Except ExcKind (List (String × String)) :=
  if (corres_survivors l_is_obj r_is_obj lkey rkey corres).length = 1 ∧
     (corres_survivors l_is_obj r_is_obj lkey rkey corres).getD 0 ("", "") = (lkey, rkey)
  then .error .assertionError
  else .ok (corres_survivors l_is_obj r_is_obj lkey rkey corres)

/-- The correspondence-list stage of `debug_blocker`:
`_get_field_correspondence_list` followed by `_filter_corres_list`. -/
def corres_pipeline (l_is_obj r_is_obj : String → Bool) (lkey rkey : String)
    (attr_corres : Option (List (String × String)))
    (auto_corres : List (String × String)) : Except ExcKind (List (String × String)) := do
  let c ← get_field_correspondence_list lkey rkey attr_corres auto_corres
  filter_corres_list l_is_obj r_is_obj lkey rkey c

/-- Per-character lowercasing, as Python `str.lower` restricted to ASCII
(the tokenization claims are insensitive to the lowercasing map itself). -/
def pyLower (s : String) : String := ⟨s.data.map Char.toLower⟩

/-- Splitting on every single space character, as Python `split(' ')`:
consecutive separators produce empty pieces. -/
def splitCharAux : List Char → List Char → List (List Char)
| [], acc => [acc.reverse]
| c :: rest, acc =>
    if c = ' ' then acc.reverse :: splitCharAux rest [] else splitCharAux rest (c :: acc)

/-- Python `s.split(' ')`. -/
def pySplitSpace (s : String) : List String := (splitCharAux s.data []).map fun cs => ⟨cs⟩

/-- Embeds `_get_tokenized_column`: per cell, `_replace_nan_to_empty`, then
lowercase and space-split when non-empty, else the one-element list `['']`. -/
def get_tokenized_column (col_values : List Value) : List (List String) :=
  col_values.map fun v =>
    let tmp := replace_nan_to_empty v
    if tmp ≠ "" then pySplitSpace (pyLower tmp) else [""]

/-- The `tmp_table` of `_get_tokenized_table`: the tokenized selected
columns, in `feature_list` order (`table.columns[feature_list]` selects
columns by position). -/
def tokenized_cols (t : Table) (feature_list : List ℕ) : List (List (List String)) :=
  (feature_list.map fun fi => (t.cols.getD fi ("", [])).2).map get_tokenized_column

/-- `num_records = len(table[table_key])`: the length of the key column. -/
def table_num_records (t : Table) (table_key : String) : ℕ :=
  ((t.cols.find? fun c => c.1 = table_key).map fun c => c.2.length).getD 0

/-- The token stream of record `i`: for each selected column `j` in order,
the tokens of cell `i` of that column, paired with `j`. -/
def record_raw_pairs (tmp_table : List (List (List String))) (i : ℕ) : List (String × ℕ) :=
  (tmp_table.enum.map fun p => (p.2.getD i []).map fun tok => (tok, p.1)).flatten

/-- The token-deduplicating loop body of `_get_tokenized_table`.  The state
function `m` models `index_map` (`m tok = 0` meaning absent): empty tokens
are dropped; a first occurrence is emitted as is and sets the count to 1; a
repeat occurrence is emitted as `tok + '_' + str(count)` and increments. -/
def suffix_tokens : List (String × ℕ) → (String → ℕ) → List (String × ℕ)
| [], _ => []
| (tok, j) :: rest, m =>
    if tok = "" then suffix_tokens rest m
    else if m tok = 0 then
      (tok, j) :: suffix_tokens rest (fun s => if s = tok then 1 else m s)
    else
      (tok ++ "_" ++ natDec (m tok), j) :: suffix_tokens rest
        (fun s => if s = tok then m tok + 1 else m s)

/-- The string emitted by `suffix_tokens` for the occurrence of `tok` whose
previous-occurrence count is `k`. -/
def encode_token (tok : String) (k : ℕ) : String :=
  if k = 0 then tok else tok ++ "_" ++ natDec k

/-- Embeds `_get_tokenized_table`: one suffixed `(token, field)` list per
record. -/
def get_tokenized_table (t : Table) (table_key : String) (feature_list : List ℕ) :
    List (List (String × ℕ)) :=
  (List.range (table_num_records t table_key)).map fun i =>
    suffix_tokens (record_raw_pairs (tokenized_cols t feature_list) i) (fun _ => 0)

/-- All token occurrences of a tokenized table, in record / position order
(the iteration of `_build_global_token_order_impl`). -/
def token_occurrences (recs : List (List (String × ℕ))) : List String :=
  recs.flatMap fun rec => rec.map Prod.fst

/-- The occurrences over both tables, left first (the two
`_build_global_token_order_impl` calls). -/
def all_occurrences (lrecs rrecs : List (List (String × ℕ))) : List String :=
  token_occurrences lrecs ++ token_occurrences rrecs

/-- The accumulated frequency of a token (`freq_order_dict[token]`). -/
def token_freq (occ : List String) (tok : String) : ℕ := occ.count tok

/-- The keys of `freq_order_dict` in insertion order (Python dicts iterate
in first-insertion order). -/
def insert_dedup (occ : List String) : List String :=
  occ.foldl (fun acc tok => if tok ∈ acc then acc else acc ++ [tok]) []

/-- The ordering of `sorted(token_list, key=lambda x: (freq[x], x))`:
ascending (frequency, code-point-lexicographic string). -/
def tokLe (occ : List String) (a b : String) : Prop :=
  token_freq occ a < token_freq occ b ∨ (token_freq occ a = token_freq occ b ∧ ¬ b < a)

instance (occ : List String) : DecidableRel (tokLe occ) := fun a b => by
  unfold tokLe; infer_instance

instance (occ : List String) : IsTotal String (tokLe occ) := ⟨fun a b => by
  unfold tokLe
  rcases lt_trichotomy (token_freq occ a) (token_freq occ b) with h | h | h
  · exact Or.inl (Or.inl h)
  · rcases le_total a b with hs | hs
    · exact Or.inl (Or.inr ⟨h, not_lt.2 hs⟩)
    · exact Or.inr (Or.inr ⟨h.symm, not_lt.2 hs⟩)
  · exact Or.inr (Or.inl h)⟩

instance (occ : List String) : IsTrans String (tokLe occ) := ⟨fun a b c hab hbc => by
  unfold tokLe at hab hbc ⊢
  rcases hab with h1 | ⟨h1, h1s⟩ <;> rcases hbc with h2 | ⟨h2, h2s⟩
  · exact Or.inl (h1.trans h2)
  · exact Or.inl (h2 ▸ h1)
  · exact Or.inl (h1 ▸ h2)
  · exact Or.inr ⟨h1.trans h2, not_lt.2 (le_trans (not_lt.1 h1s) (not_lt.1 h2s))⟩⟩

/-- The sorted distinct token list of `_build_global_token_order`. -/
def global_token_list (lrecs rrecs : List (List (String × ℕ))) : List String :=
  let occ := all_occurrences lrecs rrecs
  (insert_dedup occ).insertionSort (tokLe occ)

/-- `order_dict`: each distinct token maps to its position in the sorted
list (`order_dict[token_list[i]] = i`; on a duplicate-free list the
position is `indexOf`). -/
def order_dict (token_list : List String) (tok : String) : ℕ := token_list.indexOf tok

/-- Embeds `_replace_token_with_numeric_index`: tokens found in
`order_dict` are replaced by their rank; others are dropped. -/
def replace_token_with_numeric_index (recs : List (List (String × ℕ)))
    (token_list : List String) : List (List (ℕ × ℕ)) :=
  recs.map fun rec => rec.filterMap fun p =>
    if p.1 ∈ token_list then some (order_dict token_list p.1, p.2) else none

/-- The ordering of `sorted(record, key=lambda x: x[0])`. -/
def fstLe (a b : ℕ × ℕ) : Prop := a.1 ≤ b.1

instance : DecidableRel fstLe := fun a b => by unfold fstLe; infer_instance

instance : IsTotal (ℕ × ℕ) fstLe := ⟨fun a b => le_total a.1 b.1⟩

instance : IsTrans (ℕ × ℕ) fstLe := ⟨fun _ _ _ hab hbc => le_trans hab hbc⟩

/-- Embeds `_sort_record_tokens_by_global_order`. -/
def sort_record_tokens_by_global_order (recs : List (List (ℕ × ℕ))) :
    List (List (ℕ × ℕ)) :=
  recs.map fun rec => rec.insertionSort fstLe

/-- Embeds `_split_record_token_and_index` (the u32 arrays are modelled
as ℕ lists). -/
def split_record_token_and_index (recs : List (List (ℕ × ℕ))) :
    List (List ℕ) × List (List ℕ) :=
  (recs.map fun rec => rec.map Prod.fst, recs.map fun rec => rec.map Prod.snd)

/-- The tokenization-to-token-arrays pipeline of `debug_blocker` for the
left table: tokenize both tables, build the global order, replace tokens
by ranks, sort each record, split; first component =
`lrecord_token_list`. -/
def tokens_arrays (ltable rtable : Table) (lkey rkey : String) (feature_list : List ℕ) :
    List (List ℕ) :=
  let lrecs := get_tokenized_table ltable lkey feature_list
  let rrecs := get_tokenized_table rtable rkey feature_list
  let tl := global_token_list lrecs rrecs
  (split_record_token_and_index
    (sort_record_tokens_by_global_order
      (replace_token_with_numeric_index lrecs tl))).1

/-- The hypothesis of the corrected distinctness claim: no token produced
by column tokenization of the selected fields contains an underscore
(suffixed names can then never collide with original tokens). -/
def underscore_free_table (t : Table) (feature_list : List ℕ) : Prop :=
  ∀ col ∈ tokenized_cols t feature_list, ∀ cell ∈ col, ∀ tok ∈ cell, '_' ∉ tok.data

instance (t : Table) (feature_list : List ℕ) :
    Decidable (underscore_free_table t feature_list) := by
  unfold underscore_free_table
  infer_instance

/-- The per-left-record sets of right indices of `_index_candidate_set`,
as an association list. -/
def add_to_set_map (m : List (ℕ × List ℕ)) (i j : ℕ) : List (ℕ × List ℕ) :=
  if (m.lookup i).isSome then
    m.map fun p => if p.1 = i then (p.1, if j ∈ p.2 then p.2 else p.2 ++ [j]) else p
  else m ++ [(i, [j])]

/-- Embeds `_index_candidate_set`.  `meta_result` stands for the combined
metadata retrieval and validation (`cm.get_metadata_for_candset` /
`cm._validate_metadata_for_candset`), external collaborators modelled from
the spec as a step that either succeeds or raises; the early return on an
empty candidate set happens before it runs.  `lmap`/`rmap` are the
record-id-to-index maps applied to the two foreign-key columns. -/
def index_candidate_set (cand_rows : List (Value × Value))
    (meta_result : Except ExcKind Unit) (lmap rmap : Value → Option ℕ) :
    Except ExcKind (List (ℕ × List ℕ)) :=
  if cand_rows.length = 0 then .ok []
  else do
    _ ← meta_result
    .ok (cand_rows.foldl (fun acc p =>
      match lmap p.1, rmap p.2 with
      | some i, some j => add_to_set_map acc i j
      | _, _ => acc) [])

/-- The output tabular artifact: rows, column names, and the candidate-set
properties installed by `cm.set_candset_properties` (key, fk_ltable,
fk_rtable).  A freshly built `pd.DataFrame(rows)` has no named columns and
no properties. -/
structure DataFrame where
  rows : List (List Value)
  colNames : List String
  candsetProps : Option (String × String × String)
deriving DecidableEq

/-- `l_output_prefix` -/
def lColTag : String := "ltable_"

/-- `r_output_prefix` -/
def rColTag : String := "rtable_"

/-- The key-locating loops of `_assemble_topk_table` (default index 0). -/
def last_key_index_from_zero (names : List String) (key : String) : ℕ :=
  names.enum.foldl (fun acc p => if p.2 = key then p.1 else acc) 0

/-- The output column names of `_assemble_topk_table`. -/
def topk_col_names (ltable rtable : Table) (lkey rkey : String) : List String :=
  "_id" :: (lColTag ++ lkey) :: (rColTag ++ rkey) ::
    (((ltable.colNames.erase lkey).map fun c => lColTag ++ c) ++
     ((rtable.colNames.erase rkey).map fun c => rColTag ++ c))

/-- One output row of `_assemble_topk_table` for `rec_list[i] = tup`. -/
def topk_tuple (ltable rtable : Table) (lkey_index rkey_index : ℕ) (i : ℕ)
    (tup : ℚ × ℕ × ℕ) : List Value :=
  let lrecord := ltable.row tup.2.1
  let rrecord := rtable.row tup.2.2
  .num i :: lrecord.getD lkey_index .nan :: rrecord.getD rkey_index .nan ::
    ((lrecord.enum.filterMap fun p => if p.1 ≠ lkey_index then some p.2 else none) ++
     (rrecord.enum.filterMap fun p => if p.1 ≠ rkey_index then some p.2 else none))

/-- Embeds `_assemble_topk_table`: build the tuples, wrap them in a fresh
DataFrame, and return it untouched when empty — column names and candset
properties are only installed on a non-empty frame. -/
def assemble_topk_table (rec_list : List (ℚ × ℕ × ℕ)) (ltable rtable : Table)
    (lkey rkey : String) : DataFrame :=
  let lkey_index := last_key_index_from_zero ltable.colNames lkey
  let rkey_index := last_key_index_from_zero rtable.colNames rkey
  let tuples := rec_list.enum.map fun p => topk_tuple ltable rtable lkey_index rkey_index p.1 p.2
  let df : DataFrame := ⟨tuples, [], none⟩
  if tuples.length = 0 then df
  else ⟨tuples, topk_col_names ltable rtable lkey rkey,
        some ("_id", lColTag ++ lkey, rColTag ++ rkey)⟩

/-! ### Helper lemmas -/

/-- Every outcome of `validate_types` is success or an `AssertionError`. -/
lemma validate_types_cases (lt rt cs os ac v : PyVal) :
    validate_types lt rt cs os ac v = .ok () ∨
    validate_types lt rt cs os ac v = .error .assertionError := by
  unfold validate_types
  split_ifs <;> first | exact Or.inl rfl | exact Or.inr rfl

/-- When `verbose` is not a bool, `_validate_types` raises an
`AssertionError` (whichever check fires first, it is an assertion). -/
lemma validate_types_verbose_err (lt rt cs os ac v : PyVal) (h : v.isBool = false) :
    validate_types lt rt cs os ac v = .error .assertionError := by
  unfold validate_types
  split_ifs with h1 h2 h3 h4 h5 h6 <;> first | rfl | exact absurd h6 (by rw [h]; decide)

/-- The key pair is always in the appended correspondence list. -/
lemma mem_append_key_pair (lkey rkey : String) (c : List (String × String)) :
    (lkey, rkey) ∈ append_key_pair lkey rkey c := by
  unfold append_key_pair
  split
  · assumption
  · exact List.mem_append_right _ (by simp)

/-- The key pair always survives `_filter_corres_list` (neither of its
sides differs from the key). -/
lemma corres_keep_key (lo ro : String → Bool) (lkey rkey : String) :
    corres_keep lo ro lkey rkey (lkey, rkey) = true := by
  simp [corres_keep]

/-- The raise-condition of `_filter_corres_list` characterized: the list
is exactly the single key pair. -/
lemma corres_cond_iff (l : List (String × String)) (kp : String × String) :
    (l.length = 1 ∧ l.getD 0 ("", "") = kp) ↔ l = [kp] := by
  cases l with
  | nil => simp
  | cons a t =>
    cases t with
    | nil => simp [List.getD]
    | cons b t2 => simp

/-- `_filter_corres_list` raises exactly when the surviving list is the
single key pair. -/
lemma filter_corres_error_iff (lo ro : String → Bool) (lkey rkey : String)
    (corres : List (String × String)) :
    filter_corres_list lo ro lkey rkey corres = .error .assertionError ↔
    corres_survivors lo ro lkey rkey corres = [(lkey, rkey)] := by
  unfold filter_corres_list
  split_ifs with hc
  · simp only [true_iff]
    exact (corres_cond_iff _ _).1 hc
  · constructor
    · intro h
      exact absurd h (by simp)
    · intro h
      exact absurd ((corres_cond_iff _ _).2 h) hc

/-- `_get_field_correspondence_list` in terms of the raw list: raises on an
empty raw list, else appends the key pair when missing. -/
lemma get_field_correspondence_list_eq (lkey rkey : String)
    (attr : Option (List (String × String))) (auto : List (String × String)) :
    get_field_correspondence_list lkey rkey attr auto =
      (if raw_corres attr auto = [] then .error .assertionError
       else .ok (append_key_pair lkey rkey (raw_corres attr auto))) := by
  unfold get_field_correspondence_list raw_corres
  cases attr with
  | none => simp [List.length_eq_zero]
  | some l =>
    by_cases hl : l.length = 0
    · rw [List.length_eq_zero] at hl
      simp [hl, List.length_eq_zero]
    · have hne : l ≠ [] := fun he => hl (by rw [he]; rfl)
      simp [hl, hne]

/-- `eraseIdx` commutes with `map`. -/
lemma map_eraseIdx {α β : Type} (f : α → β) :
    ∀ (l : List α) (i : ℕ), (l.map f).eraseIdx i = (l.eraseIdx i).map f := by
  intro l
  induction l with
  | nil => intro i; rfl
  | cons a t ih =>
    intro i
    cases i with
    | zero => rfl
    | succ j => simp only [List.map_cons, List.eraseIdx_cons_succ, ih]

/-- The key pops act on the underlying position list. -/
lemma remove_key_entries_map (g : ℕ → ℕ × ℚ) (n li ri : ℕ) :
    remove_key_entries ((List.range n).map g) li ri = (remove_range n li ri).map g := by
  unfold remove_key_entries remove_range
  split_ifs <;> simp only [map_eraseIdx]

/-- Membership in `eraseIdx` on a duplicate-free list: exactly the other
elements remain. -/
lemma nodup_mem_eraseIdx {α : Type} {l : List α} (hnd : l.Nodup) {i : ℕ}
    (hi : i < l.length) (x : α) :
    x ∈ l.eraseIdx i ↔ x ∈ l ∧ x ≠ l.get ⟨i, hi⟩ := by
  induction l generalizing i with
  | nil => simp at hi
  | cons a t ih =>
    rcases List.nodup_cons.1 hnd with ⟨ha, ht⟩
    cases i with
    | zero =>
      simp only [List.eraseIdx_cons_zero]
      constructor
      · intro hx
        refine ⟨List.mem_cons_of_mem _ hx, fun he => ?_⟩
        exact ha (by rw [he] at hx; exact hx)
      · rintro ⟨hx, hne⟩
        rcases List.mem_cons.1 hx with hxa | hxt
        · exact absurd hxa hne
        · exact hxt
    | succ j =>
      have hj : j < t.length := by simpa using hi
      simp only [List.eraseIdx_cons_succ]
      constructor
      · intro hx
        rcases List.mem_cons.1 hx with hxa | hxt
        · subst hxa
          refine ⟨List.mem_cons_self _ _, fun he => ?_⟩
          exact ha (by rw [he]; exact List.get_mem t j hj)
        · have hres := (ih ht hj).1 hxt
          exact ⟨List.mem_cons_of_mem _ hres.1, hres.2⟩
      · rintro ⟨hx, hne⟩
        rcases List.mem_cons.1 hx with hxa | hxt
        · subst hxa
          exact List.mem_cons_self _ _
        · exact List.mem_cons_of_mem _ ((ih ht hj).2 ⟨hxt, hne⟩)

/-- Membership after erasing position `i` from `range n`. -/
lemma mem_eraseIdx_range (n i : ℕ) (hi : i < n) (x : ℕ) :
    x ∈ (List.range n).eraseIdx i ↔ x < n ∧ x ≠ i := by
  have hlen : i < (List.range n).length := by simpa using hi
  have h := nodup_mem_eraseIdx (List.nodup_range n) hlen x
  rw [h, List.get_eq_getElem, List.getElem_range, List.mem_range]

/-- The element at position `s` of `range n` with position `b > s` erased
is still `s`. -/
lemma get_eraseIdx_range_of_lt (n b s : ℕ) (hsb : s < b)
    (hs : s < ((List.range n).eraseIdx b).length) :
    ((List.range n).eraseIdx b).get ⟨s, hs⟩ = s := by
  have hn : s < n := by
    have hc := hs
    rw [List.length_eraseIdx, List.length_range] at hc
    split_ifs at hc <;> omega
  have hs' : s < ((List.range n).take b).length := by
    rw [List.length_take, List.length_range]
    omega
  have he : (List.range n).eraseIdx b =
      (List.range n).take b ++ (List.range n).drop (b + 1) :=
    List.eraseIdx_eq_take_drop_succ _ _
  rw [List.get_eq_getElem]
  simp only [he]
  rw [List.getElem_append_left hs', List.getElem_take]
  exact List.getElem_range _ _

/-- Membership in the doubly-erased position list: everything below `n`
except the two key positions. -/
lemma mem_remove_range (n li ri : ℕ) (hli : li < n) (hri : ri < n) (x : ℕ) :
    x ∈ remove_range n li ri ↔ x < n ∧ x ≠ li ∧ x ≠ ri := by
  have main : ∀ b s, b < n → s < b → ∀ y,
      (y ∈ ((List.range n).eraseIdx b).eraseIdx s ↔ y < n ∧ y ≠ b ∧ y ≠ s) := by
    intro b s hb hsb y
    have hnd : ((List.range n).eraseIdx b).Nodup :=
      (List.eraseIdx_sublist _ _).nodup (List.nodup_range n)
    have hs : s < ((List.range n).eraseIdx b).length := by
      rw [List.length_eraseIdx, List.length_range]
      split_ifs <;> omega
    have hget := get_eraseIdx_range_of_lt n b s hsb hs
    rw [nodup_mem_eraseIdx hnd hs y, mem_eraseIdx_range n b hb y, hget]
    tauto
  unfold remove_range
  split_ifs with h1 h2
  · subst h1
    rw [mem_eraseIdx_range n li hli x]
    tauto
  · rw [main li ri hli (by omega) x]
  · rw [main ri li hri (by omega) x]
    tauto

/-- The doubly-erased position list has no duplicates. -/
lemma remove_range_nodup (n li ri : ℕ) : (remove_range n li ri).Nodup := by
  unfold remove_range
  split_ifs <;>
    first
    | exact (List.eraseIdx_sublist _ _).nodup (List.nodup_range n)
    | exact (List.eraseIdx_sublist _ _).nodup
        ((List.eraseIdx_sublist _ _).nodup (List.nodup_range n))

/-- Length of the remaining position list after the key pops. -/
lemma remove_range_length (n li ri : ℕ) (hli : li < n) (hri : ri < n) :
    (remove_range n li ri).length = if li = ri then n - 1 else n - 2 := by
  unfold remove_range
  split_ifs with h1 h2
  · rw [List.length_eraseIdx, List.length_range]
    split_ifs <;> omega
  · have hfirst : ((List.range n).eraseIdx li).length = n - 1 := by
      rw [List.length_eraseIdx, List.length_range]
      split_ifs <;> omega
    rw [List.length_eraseIdx, hfirst]
    split_ifs <;> omega
  · have hfirst : ((List.range n).eraseIdx ri).length = n - 1 := by
      rw [List.length_eraseIdx, List.length_range]
      split_ifs <;> omega
    rw [List.length_eraseIdx, hfirst]
    split_ifs <;> omega

/-- The `_select_features` key-locating fold yields -1 or a valid index. -/
lemma last_key_index_cases (names : List String) (key : String) :
    last_key_index names key = -1 ∨
    ∃ i : ℕ, i < names.length ∧ last_key_index names key = i := by
  unfold last_key_index
  have main : ∀ (l : List (ℕ × String)) (acc : ℤ),
      (∀ p ∈ l, p.1 < names.length) →
      (acc = -1 ∨ ∃ i : ℕ, i < names.length ∧ acc = i) →
      (l.foldl (fun acc p => if p.2 = key then (p.1 : ℤ) else acc) acc = -1 ∨
        ∃ i : ℕ, i < names.length ∧
          l.foldl (fun acc p => if p.2 = key then (p.1 : ℤ) else acc) acc = i) := by
    intro l
    induction l with
    | nil =>
      intro acc _ hacc
      simpa using hacc
    | cons p t ih =>
      intro acc hmem hacc
      rw [List.foldl_cons]
      apply ih _ (fun q hq => hmem q (List.mem_cons_of_mem _ hq))
      split_ifs with hc
      · exact Or.inr ⟨p.1, hmem p (List.mem_cons_self _ _), rfl⟩
      · exact hacc
  apply main
  · intro p hp
    rcases p with ⟨i, s⟩
    exact (List.mem_enum hp).1
  · exact Or.inl rfl

/-- When the key is found, its fold result converts to a valid position. -/
lemma last_key_index_toNat_lt (names : List String) (key : String)
    (h : ¬ last_key_index names key < 0) :
    (last_key_index names key).toNat < names.length := by
  rcases last_key_index_cases names key with h1 | ⟨i, hi, h2⟩
  · exfalso
    rw [h1] at h
    exact h (by norm_num)
  · rw [h2, Int.toNat_natCast]
    exact hi

/-- The fuel-based decimal rendering agrees with `Nat.digits`. -/
lemma natDecCharsAux_eq_digits : ∀ (fuel n : ℕ), n ≤ fuel →
    natDecCharsAux fuel n = ((Nat.digits 10 n).map fun d => Char.ofNat (48 + d)).reverse := by
  intro fuel
  induction fuel with
  | zero =>
    intro n hn
    have : n = 0 := by omega
    subst this
    simp [natDecCharsAux, Nat.digits_zero]
  | succ f ih =>
    intro n hn
    by_cases hz : n = 0
    · subst hz
      simp [natDecCharsAux, Nat.digits_zero]
    · rw [natDecCharsAux, if_neg hz]
      have hpos : 0 < n := by omega
      have hdiv : n / 10 ≤ f := by
        have := Nat.div_lt_self hpos (by norm_num : (1 : ℕ) < 10)
        omega
      rw [ih (n / 10) hdiv, Nat.digits_def' (by norm_num : (1 : ℕ) < 10) hpos,
        List.map_cons, List.reverse_cons]

/-- Decimal digit characters are never the underscore. -/
lemma digit_char_ne_underscore (d : ℕ) (hd : d < 10) : Char.ofNat (48 + d) ≠ '_' := by
  interval_cases d <;> decide

/-- Decimal digit characters identify the digit. -/
lemma digit_char_inj (d1 d2 : ℕ) (h1 : d1 < 10) (h2 : d2 < 10)
    (h : Char.ofNat (48 + d1) = Char.ofNat (48 + d2)) : d1 = d2 := by
  interval_cases d1 <;> interval_cases d2 <;> revert h <;> decide

/-- `str(k)` contains no underscore. -/
lemma natDec_no_underscore (n : ℕ) : '_' ∉ (natDec n).data := by
  unfold natDec
  split_ifs with h
  · decide
  · show '_' ∉ natDecCharsAux n n
    rw [natDecCharsAux_eq_digits n n le_rfl]
    intro hm
    rw [List.mem_reverse] at hm
    rcases List.mem_map.1 hm with ⟨d, hd, he⟩
    exact digit_char_ne_underscore d (Nat.digits_lt_base (by norm_num) hd) he

/-- Mapping digit lists to digit characters is injective. -/
lemma map_digit_char_inj : ∀ (l1 l2 : List ℕ), (∀ d ∈ l1, d < 10) → (∀ d ∈ l2, d < 10) →
    l1.map (fun d => Char.ofNat (48 + d)) = l2.map (fun d => Char.ofNat (48 + d)) →
    l1 = l2 := by
  intro l1
  induction l1 with
  | nil =>
    intro l2 _ _ h
    cases l2 with
    | nil => rfl
    | cons b t => simp at h
  | cons a t ih =>
    intro l2 hb1 hb2 h
    cases l2 with
    | nil => simp at h
    | cons b t2 =>
      rw [List.map_cons, List.map_cons] at h
      have hh := List.cons.inj h
      have hab : a = b :=
        digit_char_inj a b (hb1 a (List.mem_cons_self _ _)) (hb2 b (List.mem_cons_self _ _))
          hh.1
      have hts : t = t2 := ih t2 (fun d hd => hb1 d (List.mem_cons_of_mem _ hd))
        (fun d hd => hb2 d (List.mem_cons_of_mem _ hd)) hh.2
      rw [hab, hts]

/-- `str` is injective on positives. -/
lemma natDec_inj (m n : ℕ) (hm : 0 < m) (hn : 0 < n) (h : natDec m = natDec n) : m = n := by
  unfold natDec at h
  rw [if_neg (by omega), if_neg (by omega)] at h
  have hdata : natDecCharsAux m m = natDecCharsAux n n := congrArg String.data h
  rw [natDecCharsAux_eq_digits m m le_rfl, natDecCharsAux_eq_digits n n le_rfl] at hdata
  have h2 := List.reverse_injective hdata
  have hdig : Nat.digits 10 m = Nat.digits 10 n :=
    map_digit_char_inj _ _ (fun d hd => Nat.digits_lt_base (by norm_num) hd)
      (fun d hd => Nat.digits_lt_base (by norm_num) hd) h2
  have := congrArg (Nat.ofDigits 10) hdig
  rwa [Nat.ofDigits_digits, Nat.ofDigits_digits] at this

/-- Splitting a character list at a separator that occurs in neither part. -/
lemma append_sep_inj : ∀ (l1 l2 d1 d2 : List Char), '_' ∉ l1 → '_' ∉ l2 →
    l1 ++ '_' :: d1 = l2 ++ '_' :: d2 → l1 = l2 ∧ d1 = d2 := by
  intro l1
  induction l1 with
  | nil =>
    intro l2 d1 d2 _ h2 he
    cases l2 with
    | nil =>
      refine ⟨rfl, ?_⟩
      simpa using he
    | cons b t =>
      exfalso
      rw [List.nil_append, List.cons_append] at he
      have hb : '_' = b := (List.cons.inj he).1
      exact h2 (hb ▸ List.mem_cons_self _ _)
  | cons a t ih =>
    intro l2 d1 d2 h1 h2 he
    cases l2 with
    | nil =>
      exfalso
      rw [List.nil_append, List.cons_append] at he
      have ha : a = '_' := (List.cons.inj he).1
      exact h1 (ha ▸ List.mem_cons_self _ _)
    | cons b t2 =>
      rw [List.cons_append, List.cons_append] at he
      have hh := List.cons.inj he
      have hrec := ih t2 d1 d2 (fun hm => h1 (List.mem_cons_of_mem _ hm))
        (fun hm => h2 (List.mem_cons_of_mem _ hm)) hh.2
      exact ⟨by rw [hh.1, hrec.1], hrec.2⟩

/-- The character data of an emitted suffixed token. -/
lemma encode_token_data (tok : String) (k : ℕ) (hk : k ≠ 0) :
    (encode_token tok k).data = tok.data ++ '_' :: (natDec k).data := by
  unfold encode_token
  rw [if_neg hk]
  rw [String.data_append, String.data_append, List.append_assoc]
  rfl

/-- The suffixing encode map is injective for underscore-free base tokens. -/
lemma encode_token_inj (t1 t2 : String) (k1 k2 : ℕ) (h1 : '_' ∉ t1.data)
    (h2 : '_' ∉ t2.data) (he : encode_token t1 k1 = encode_token t2 k2) :
    t1 = t2 ∧ k1 = k2 := by
  by_cases e1 : k1 = 0 <;> by_cases e2 : k2 = 0
  · subst e1
    subst e2
    unfold encode_token at he
    exact ⟨he, rfl⟩
  · exfalso
    have hd := congrArg String.data he
    rw [encode_token_data t2 k2 e2] at hd
    subst e1
    unfold encode_token at hd
    rw [if_pos rfl] at hd
    apply h1
    rw [hd]
    exact List.mem_append_right _ (List.mem_cons_self _ _)
  · exfalso
    have hd := congrArg String.data he
    rw [encode_token_data t1 k1 e1] at hd
    subst e2
    unfold encode_token at hd
    rw [if_pos rfl] at hd
    apply h2
    rw [← hd]
    exact List.mem_append_right _ (List.mem_cons_self _ _)
  · have hd := congrArg String.data he
    rw [encode_token_data t1 k1 e1, encode_token_data t2 k2 e2] at hd
    have hsplit := append_sep_inj t1.data t2.data (natDec k1).data (natDec k2).data
      h1 h2 hd
    refine ⟨String.ext hsplit.1, ?_⟩
    exact natDec_inj k1 k2 (by omega) (by omega) (String.ext hsplit.2)

/-- Unfolding one non-empty token of the suffixing loop: the emitted string
is the encode of the current count, and the count map is bumped. -/
lemma suffix_tokens_cons (tok : String) (j : ℕ) (rest : List (String × ℕ))
    (m : String → ℕ) (he : tok ≠ "") :
    suffix_tokens ((tok, j) :: rest) m =
      (encode_token tok (m tok), j) :: suffix_tokens rest
        (fun s => if s = tok then m tok + 1 else m s) := by
  show (if tok = "" then suffix_tokens rest m
    else if m tok = 0 then
      (tok, j) :: suffix_tokens rest (fun s => if s = tok then 1 else m s)
    else (tok ++ "_" ++ natDec (m tok), j) :: suffix_tokens rest
      (fun s => if s = tok then m tok + 1 else m s)) = _
  rw [if_neg he]
  by_cases hz : m tok = 0
  · rw [if_pos hz, hz]
    rfl
  · rw [if_neg hz]
    unfold encode_token
    rw [if_neg hz]

/-- Every string emitted by the suffixing loop encodes some original token
with a count at least the current one. -/
lemma mem_suffix_tokens : ∀ (l : List (String × ℕ)) (m : String → ℕ) (s : String),
    s ∈ (suffix_tokens l m).map Prod.fst →
    ∃ t k, t ∈ l.map Prod.fst ∧ s = encode_token t k ∧ m t ≤ k := by
  intro l
  induction l with
  | nil =>
    intro m s hs
    simp [suffix_tokens] at hs
  | cons p rest ih =>
    intro m s hs
    rcases p with ⟨tok, j⟩
    by_cases he : tok = ""
    · have hskip : suffix_tokens ((tok, j) :: rest) m = suffix_tokens rest m := by
        show (if tok = "" then suffix_tokens rest m else _) = _
        rw [if_pos he]
      rw [hskip] at hs
      rcases ih m s hs with ⟨t, k, ht, hsk, hk⟩
      exact ⟨t, k, List.mem_cons_of_mem _ ht, hsk, hk⟩
    · rw [suffix_tokens_cons tok j rest m he, List.map_cons] at hs
      rcases List.mem_cons.1 hs with hhead | htail
      · exact ⟨tok, m tok, by simp, hhead, le_rfl⟩
      · rcases ih _ s htail with ⟨t, k, ht, hsk, hk⟩
        refine ⟨t, k, List.mem_cons_of_mem _ ht, hsk, ?_⟩
        by_cases hte : t = tok
        · subst hte
          rw [if_pos rfl] at hk
          omega
        · rwa [if_neg hte] at hk

/-- The suffixing loop emits pairwise distinct strings whenever the
original tokens are underscore-free. -/
lemma suffix_tokens_nodup : ∀ (l : List (String × ℕ)) (m : String → ℕ),
    (∀ p ∈ l, '_' ∉ (Prod.fst p).data) →
    ((suffix_tokens l m).map Prod.fst).Nodup := by
  intro l
  induction l with
  | nil =>
    intro m _
    simp [suffix_tokens]
  | cons p rest ih =>
    intro m hfree
    rcases p with ⟨tok, j⟩
    have hfree_tok : '_' ∉ tok.data := hfree (tok, j) (List.mem_cons_self _ _)
    have hfree_rest : ∀ q ∈ rest, '_' ∉ (Prod.fst q).data :=
      fun q hq => hfree q (List.mem_cons_of_mem _ hq)
    by_cases he : tok = ""
    · have hskip : suffix_tokens ((tok, j) :: rest) m = suffix_tokens rest m := by
        show (if tok = "" then suffix_tokens rest m else _) = _
        rw [if_pos he]
      rw [hskip]
      exact ih m hfree_rest
    · rw [suffix_tokens_cons tok j rest m he, List.map_cons, List.nodup_cons]
      refine ⟨?_, ih _ hfree_rest⟩
      intro hmem
      rcases mem_suffix_tokens rest _ _ hmem with ⟨u, k, hu, hek, hk⟩
      have hufree : '_' ∉ u.data := by
        rcases List.mem_map.1 hu with ⟨q, hq, hq2⟩
        rw [← hq2]
        exact hfree_rest q hq
      rcases encode_token_inj tok u (m tok) k hfree_tok hufree hek with ⟨hte, hke⟩
      subst hte
      rw [if_pos rfl] at hk
      omega

/-- A `filterMap` whose test holds on every element is a `map`. -/
lemma filterMap_if_all {α β : Type} (P : α → Prop) [DecidablePred P] (f : α → β) :
    ∀ (l : List α), (∀ a ∈ l, P a) →
      l.filterMap (fun a => if P a then some (f a) else none) = l.map f := by
  intro l
  induction l with
  | nil =>
    intro _
    rfl
  | cons a t ih =>
    intro h
    have hrest := ih fun b hb => h b (List.mem_cons_of_mem _ hb)
    simp only [List.filterMap_cons, if_pos (h a (List.mem_cons_self _ _)), hrest,
      List.map_cons]

/-- Under the underscore-free hypothesis, every tokenized record of
`_get_tokenized_table` has pairwise distinct token strings. -/
lemma get_tokenized_table_nodup (t : Table) (key : String) (fl : List ℕ)
    (hfree : underscore_free_table t fl) :
    ∀ rec ∈ get_tokenized_table t key fl, (rec.map Prod.fst).Nodup := by
  intro rec hrec
  unfold get_tokenized_table at hrec
  rcases List.mem_map.1 hrec with ⟨i, _, heq⟩
  rw [← heq]
  apply suffix_tokens_nodup
  intro p hp
  unfold record_raw_pairs at hp
  rw [List.mem_flatten] at hp
  rcases hp with ⟨inner, hinner, hpinner⟩
  rcases List.mem_map.1 hinner with ⟨q, hq, hq2⟩
  rw [← hq2] at hpinner
  rcases List.mem_map.1 hpinner with ⟨tok, htok, htp⟩
  rw [← htp]
  rcases q with ⟨qi, qcol⟩
  have hqm := List.mem_enum hq
  have hcol : qcol ∈ tokenized_cols t fl := by
    rw [hqm.2]
    exact List.getElem_mem _
  by_cases hlen : i < qcol.length
  · have hcell : qcol.getD i [] ∈ qcol := by
      rw [List.getD_eq_getElem _ _ hlen]
      exact List.getElem_mem _
    exact hfree qcol hcol (qcol.getD i []) hcell tok htok
  · rw [List.getD_eq_default _ _ (Nat.le_of_not_lt hlen)] at htok
    simp at htok

/-- The dict-key accumulation of `_build_global_token_order` keeps the
accumulator duplicate-free and collects exactly the seen tokens. -/
lemma insert_dedup_aux (l : List String) : ∀ (acc : List String), acc.Nodup →
    (l.foldl (fun acc tok => if tok ∈ acc then acc else acc ++ [tok]) acc).Nodup ∧
    (∀ x, x ∈ l.foldl (fun acc tok => if tok ∈ acc then acc else acc ++ [tok]) acc ↔
      x ∈ acc ∨ x ∈ l) := by
  induction l with
  | nil =>
    intro acc hacc
    exact ⟨hacc, fun x => by simp⟩
  | cons t rest ih =>
    intro acc hacc
    rw [List.foldl_cons]
    by_cases hmem : t ∈ acc
    · rw [if_pos hmem]
      rcases ih acc hacc with ⟨hnd, hm⟩
      refine ⟨hnd, fun x => ?_⟩
      rw [hm x]
      constructor
      · rintro (hx | hx)
        · exact Or.inl hx
        · exact Or.inr (List.mem_cons_of_mem _ hx)
      · rintro (hx | hx)
        · exact Or.inl hx
        · rcases List.mem_cons.1 hx with hx | hx
          · exact Or.inl (hx ▸ hmem)
          · exact Or.inr hx
    · rw [if_neg hmem]
      have hacc' : (acc ++ [t]).Nodup := by
        simp [List.nodup_append, hacc, hmem]
      rcases ih (acc ++ [t]) hacc' with ⟨hnd, hm⟩
      refine ⟨hnd, fun x => ?_⟩
      rw [hm x]
      simp only [List.mem_append, List.mem_singleton, List.mem_cons]
      tauto

/-- `insert_dedup` has no duplicates. -/
lemma insert_dedup_nodup (occ : List String) : (insert_dedup occ).Nodup :=
  (insert_dedup_aux occ [] (by simp)).1

/-- `insert_dedup` holds exactly the occurring tokens. -/
lemma mem_insert_dedup (occ : List String) (x : String) :
    x ∈ insert_dedup occ ↔ x ∈ occ := by
  rw [insert_dedup, (insert_dedup_aux occ [] (by simp)).2 x]
  simp

/-- The global token list is a permutation of the distinct tokens. -/
lemma global_token_list_perm (lrecs rrecs : List (List (String × ℕ))) :
    (global_token_list lrecs rrecs).Perm (insert_dedup (all_occurrences lrecs rrecs)) :=
  List.perm_insertionSort _ _

/-- The global token list has no duplicates. -/
lemma global_token_list_nodup (lrecs rrecs : List (List (String × ℕ))) :
    (global_token_list lrecs rrecs).Nodup :=
  (global_token_list_perm lrecs rrecs).symm.nodup (insert_dedup_nodup _)

/-- Membership in the global token list is occurrence in either table. -/
lemma mem_global_token_list (lrecs rrecs : List (List (String × ℕ))) (x : String) :
    x ∈ global_token_list lrecs rrecs ↔ x ∈ all_occurrences lrecs rrecs := by
  rw [(global_token_list_perm lrecs rrecs).mem_iff, mem_insert_dedup]

/-- The global token list is strictly ascending in (frequency, string). -/
lemma global_token_list_strict_sorted (lrecs rrecs : List (List (String × ℕ))) :
    List.Pairwise (fun a b =>
      token_freq (all_occurrences lrecs rrecs) a <
        token_freq (all_occurrences lrecs rrecs) b ∨
      (token_freq (all_occurrences lrecs rrecs) a =
        token_freq (all_occurrences lrecs rrecs) b ∧ a < b))
      (global_token_list lrecs rrecs) := by
  have hsorted : List.Pairwise (tokLe (all_occurrences lrecs rrecs))
      (global_token_list lrecs rrecs) :=
    List.sorted_insertionSort _ _
  have hne : List.Pairwise (fun a b : String => a ≠ b) (global_token_list lrecs rrecs) :=
    global_token_list_nodup lrecs rrecs
  refine (hsorted.and hne).imp ?_
  rintro a b ⟨hle, hab⟩
  rcases hle with h | ⟨hf, hs⟩
  · exact Or.inl h
  · exact Or.inr ⟨hf, lt_of_le_of_ne (not_lt.1 hs) hab⟩

/-- `order_dict` sends the token at position i of the sorted token list to
the rank i. -/
lemma order_dict_get (tl : List String) (hnd : tl.Nodup) (i : ℕ) (hi : i < tl.length) :
    order_dict tl (tl.get ⟨i, hi⟩) = i := by
  unfold order_dict
  exact List.get_indexOf hnd ⟨i, hi⟩

/-- `order_dict` is injective on the tokens of a duplicate-free list. -/
lemma order_dict_inj (tl : List String) (hnd : tl.Nodup) (a b : String)
    (ha : a ∈ tl) (hb : b ∈ tl) (h : order_dict tl a = order_dict tl b) : a = b := by
  unfold order_dict at h
  have ha' : List.indexOf a tl < tl.length := List.indexOf_lt_length.2 ha
  have hb' : List.indexOf b tl < tl.length := List.indexOf_lt_length.2 hb
  have e1 := List.indexOf_get ha'
  have e2 := List.indexOf_get hb'
  rw [← e1, ← e2]
  congr 1
  exact Fin.ext h

/-- The ranks of the sorted token list are exactly 0, 1, ..., |V|-1. -/
lemma map_order_dict_eq_range (tl : List String) (hnd : tl.Nodup) :
    tl.map (order_dict tl) = List.range tl.length := by
  apply List.ext_getElem
  · rw [List.length_map, List.length_range]
  · intro i h1 h2
    rw [List.getElem_map, List.getElem_range]
    have := order_dict_get tl hnd i (by simpa using h1)
    rw [List.get_eq_getElem] at this
    exact this

/-- Under the underscore-free hypothesis on the left table, every token
array produced by the rank-substitute / sort / split pipeline is strictly
ascending. -/
lemma tokens_arrays_strict (lt rt : Table) (lkey rkey : String) (fl : List ℕ)
    (hfree : underscore_free_table lt fl) :
    ∀ arr ∈ tokens_arrays lt rt lkey rkey fl,
      List.Pairwise (fun a b : ℕ => a < b) arr := by
  intro arr harr
  simp only [tokens_arrays, split_record_token_and_index,
    sort_record_tokens_by_global_order, replace_token_with_numeric_index,
    List.map_map] at harr
  rcases List.mem_map.1 harr with ⟨rec, hrec, heq⟩
  rw [← heq]
  show List.Pairwise (fun a b : ℕ => a < b)
    (((rec.filterMap fun p =>
        if p.1 ∈ global_token_list (get_tokenized_table lt lkey fl)
            (get_tokenized_table rt rkey fl)
        then some (order_dict (global_token_list (get_tokenized_table lt lkey fl)
            (get_tokenized_table rt rkey fl)) p.1, p.2)
        else none).insertionSort fstLe).map Prod.fst)
  set TL := global_token_list (get_tokenized_table lt lkey fl)
    (get_tokenized_table rt rkey fl) with hTL
  have hndTL : TL.Nodup := global_token_list_nodup _ _
  have hmemTL : ∀ p ∈ rec, p.1 ∈ TL := by
    intro p hp
    rw [hTL, mem_global_token_list]
    unfold all_occurrences
    apply List.mem_append_left
    unfold token_occurrences
    rw [List.mem_flatMap]
    exact ⟨rec, hrec, List.mem_map_of_mem _ hp⟩
  have hrepl : (rec.filterMap fun p =>
      if p.1 ∈ TL then some (order_dict TL p.1, p.2) else none) =
      rec.map fun p => (order_dict TL p.1, p.2) :=
    filterMap_if_all (fun p : String × ℕ => p.1 ∈ TL)
      (fun p => (order_dict TL p.1, p.2)) rec hmemTL
  rw [hrepl]
  have hndstr : (rec.map Prod.fst).Nodup :=
    get_tokenized_table_nodup lt lkey fl hfree rec hrec
  have hnd_ranks : ((rec.map fun p : String × ℕ =>
      (order_dict TL p.1, p.2)).map Prod.fst).Nodup := by
    rw [List.map_map]
    have hcomp : rec.map (Prod.fst ∘ fun p : String × ℕ => (order_dict TL p.1, p.2)) =
        (rec.map Prod.fst).map (order_dict TL) := by
      rw [List.map_map]
      rfl
    rw [hcomp]
    apply List.Nodup.map_on
    · intro x hx y hy hxy
      have hxTL : x ∈ TL := by
        rcases List.mem_map.1 hx with ⟨p, hp, he⟩
        rw [← he]
        exact hmemTL p hp
      have hyTL : y ∈ TL := by
        rcases List.mem_map.1 hy with ⟨p, hp, he⟩
        rw [← he]
        exact hmemTL p hp
      exact order_dict_inj TL hndTL x y hxTL hyTL hxy
    · exact hndstr
  have hsorted := List.sorted_insertionSort fstLe
    (rec.map fun p : String × ℕ => (order_dict TL p.1, p.2))
  have hperm := List.perm_insertionSort fstLe
    (rec.map fun p : String × ℕ => (order_dict TL p.1, p.2))
  have hndfst : (((rec.map fun p : String × ℕ =>
      (order_dict TL p.1, p.2)).insertionSort fstLe).map Prod.fst).Nodup :=
    ((hperm.map Prod.fst).symm).nodup hnd_ranks
  rw [List.pairwise_map]
  have hne : List.Pairwise (fun a b : ℕ × ℕ => a.1 ≠ b.1)
      ((rec.map fun p : String × ℕ => (order_dict TL p.1, p.2)).insertionSort fstLe) :=
    List.pairwise_map.1 hndfst
  refine (hsorted.and hne).imp ?_
  rintro a b ⟨hle, hne2⟩
  exact lt_of_le_of_ne hle hne2

/-- The core of `_select_features` after the guards: pop the key entries,
sort descending by weight product, cut at 8.  All stated properties of the
selected index list. -/
lemma select_core (lw rw : List ℚ) (li ri : ℕ) (hli : li < lw.length)
    (hri : ri < lw.length) :
    ∀ sel, sel = (((remove_key_entries (rank_scores lw rw) li ri).insertionSort wLe).take
        (if ((remove_key_entries (rank_scores lw rw) li ri).insertionSort wLe).length <
            SELECTED_FIELDS_UPPER_BOUND
         then ((remove_key_entries (rank_scores lw rw) li ri).insertionSort wLe).length
         else SELECTED_FIELDS_UPPER_BOUND)).map Prod.fst →
      sel.length = min (if li = ri then lw.length - 1 else lw.length - 2) 8 ∧
      li ∉ sel ∧ ri ∉ sel ∧ sel.Nodup ∧ (∀ i ∈ sel, i < lw.length) ∧
      List.Pairwise
        (fun i j => lw.getD j 0 * rw.getD j 0 ≤ lw.getD i 0 * rw.getD i 0) sel ∧
      (∀ i ∈ sel, ∀ j, j < lw.length → j ∉ sel → j ≠ li → j ≠ ri →
        lw.getD j 0 * rw.getD j 0 ≤ lw.getD i 0 * rw.getD i 0) := by
  intro sel hsel
  have hrem : remove_key_entries (rank_scores lw rw) li ri =
      (remove_range lw.length li ri).map (fun i => (i, lw.getD i 0 * rw.getD i 0)) :=
    remove_key_entries_map _ _ _ _
  set G : ℕ → ℕ × ℚ := fun i => (i, lw.getD i 0 * rw.getD i 0) with hG
  set RR := remove_range lw.length li ri with hRR
  set SRT := (remove_key_entries (rank_scores lw rw) li ri).insertionSort wLe with hSRT
  set k := if SRT.length < SELECTED_FIELDS_UPPER_BOUND then SRT.length
    else SELECTED_FIELDS_UPPER_BOUND with hk
  have hperm : SRT.Perm (RR.map G) := by
    rw [hSRT, hrem]
    exact List.perm_insertionSort wLe _
  have hsorted : List.Pairwise wLe SRT := List.sorted_insertionSort wLe _
  have hfstSRT : (SRT.map Prod.fst).Perm RR := by
    have h1 : (SRT.map Prod.fst).Perm ((RR.map G).map Prod.fst) := hperm.map Prod.fst
    rw [List.map_map] at h1
    have h2 : (Prod.fst ∘ G) = id := rfl
    rw [h2, List.map_id] at h1
    exact h1
  have hndRR : RR.Nodup := remove_range_nodup _ _ _
  have hndfst : (SRT.map Prod.fst).Nodup := hfstSRT.symm.nodup hndRR
  have hsub : ((SRT.take k).map Prod.fst).Sublist (SRT.map Prod.fst) :=
    (List.take_sublist _ _).map _
  have hmemRR : ∀ x, x ∈ sel → x ∈ RR := by
    intro x hx
    rw [hsel] at hx
    exact hfstSRT.mem_iff.1 (hsub.subset hx)
  have hsnd : ∀ p ∈ SRT, p.2 = lw.getD p.1 0 * rw.getD p.1 0 := by
    intro p hp
    rcases List.mem_map.1 (hperm.mem_iff.1 hp) with ⟨x, _, hgx⟩
    rw [← hgx]
  have hLRR : RR.length = if li = ri then lw.length - 1 else lw.length - 2 :=
    remove_range_length _ _ _ hli hri
  have hlenSRT : SRT.length = RR.length := by
    have h1 := hperm.length_eq
    rwa [List.length_map] at h1
  refine ⟨?_, ?_, ?_, ?_, ?_, ?_, ?_⟩
  · rw [hsel, List.length_map, List.length_take, hk, hlenSRT, hLRR]
    unfold SELECTED_FIELDS_UPPER_BOUND
    split_ifs <;> omega
  · intro hmem
    have := (mem_remove_range _ _ _ hli hri li).1 (hmemRR li hmem)
    exact this.2.1 rfl
  · intro hmem
    have := (mem_remove_range _ _ _ hli hri ri).1 (hmemRR ri hmem)
    exact this.2.2 rfl
  · rw [hsel]
    exact hsub.nodup hndfst
  · intro i hi
    exact ((mem_remove_range _ _ _ hli hri i).1 (hmemRR i hi)).1
  · rw [hsel, List.pairwise_map]
    have hpw : List.Pairwise wLe (SRT.take k) :=
      List.Pairwise.sublist (List.take_sublist _ _) hsorted
    refine List.Pairwise.imp_of_mem ?_ hpw
    intro a b ha hb hab
    have hsa := hsnd a ((List.take_sublist _ _).subset ha)
    have hsb := hsnd b ((List.take_sublist _ _).subset hb)
    rw [← hsa, ← hsb]
    exact hab
  · intro i hi j hj hjnot hjli hjri
    have hjRR : j ∈ RR := (mem_remove_range _ _ _ hli hri j).2 ⟨hj, hjli, hjri⟩
    have hGj : G j ∈ SRT := hperm.mem_iff.2 (List.mem_map_of_mem G hjRR)
    have hGj' : G j ∈ SRT.take k ++ SRT.drop k := by
      rw [List.take_append_drop]
      exact hGj
    have hpwapp : List.Pairwise wLe (SRT.take k ++ SRT.drop k) := by
      rw [List.take_append_drop]
      exact hsorted
    have hcross := (List.pairwise_append.1 hpwapp).2.2
    rcases List.mem_append.1 hGj' with hin | hin
    · exfalso
      apply hjnot
      rw [hsel]
      exact List.mem_map_of_mem Prod.fst hin
    · rw [hsel] at hi
      rcases List.mem_map.1 hi with ⟨p, hp, hpi⟩
      have hw : wLe p (G j) := hcross p hp (G j) hin
      have hsp := hsnd p ((List.take_sublist _ _).subset hp)
      rw [← hpi, ← hsp]
      exact hw


/-- C5 (confirmed): for n_jobs different from 0 and n_configs in the legal
domain, `_get_config_num` resolves the configuration count to N when
n_configs = -2, to P + 1 + n_jobs when n_configs = -1 and n_jobs < 0, to
n_jobs when n_configs = -1 and n_jobs > 0, and to n_configs otherwise, in
all cases clamped so as not to exceed the total N. -/
theorem C5_config_count_resolution (n_jobs n_configs n_total ncpus : ℤ)
    (hj : n_jobs ≠ 0) (hc : n_configs = -2 ∨ n_configs = -1 ∨ 1 ≤ n_configs) :
    get_config_num n_jobs n_configs n_total ncpus =
      .ok (min (if n_configs = -2 then n_total
                else if n_configs = -1 then
                  (if n_jobs < 0 then ncpus + 1 + n_jobs else n_jobs)
                else n_configs) n_total) := by
  have hdom : ¬(n_jobs = 0 ∨ n_configs = 0 ∨ n_configs < -2) := by
    push_neg
    exact ⟨hj, by omega, by omega⟩
  have key : ∀ a b : ℤ,
      (if a < b then (Except.ok a : Except ExcKind ℤ) else Except.ok b) =
        Except.ok (min a b) := by
    intro a b
    split
    · next h => rw [min_eq_left h.le]
    · next h => rw [min_eq_right (not_lt.1 h)]
  unfold get_config_num
  rw [if_neg hdom]
  exact key _ _

/-- Witness for C5 at n_jobs = -3, n_configs = -1, N = 10, P = 4. -/
theorem C5_config_count_resolution_witness :
    (-3 : ℤ) ≠ 0 ∧
    ((-1 : ℤ) = -2 ∨ (-1 : ℤ) = -1 ∨ 1 ≤ (-1 : ℤ)) ∧
    get_config_num (-3) (-1) 10 4 =
      .ok (min (if (-1 : ℤ) = -2 then 10
                else if (-1 : ℤ) = -1 then
                  (if (-3 : ℤ) < 0 then 4 + 1 + (-3) else (-3))
                else (-1)) 10) :=
  ⟨by decide, Or.inr (Or.inl rfl),
   C5_config_count_resolution (-3) (-1) 10 4 (by decide) (Or.inr (Or.inl rfl))⟩

/-- C4 counterexample: the InvalidInput case n_jobs = 0 is surfaced by
`_get_config_num` as a ValueError, not as an AssertionError. -/
theorem C4_counterexample :
    get_config_num 0 1 5 4 = .error .valueError ∧
    ExcKind.valueError ≠ ExcKind.assertionError :=
  ⟨rfl, by decide⟩

/-- C4 (corrected): the type/emptiness/size validation errors are
assertion-style failures, but the InvalidInput cases n_jobs = 0 and
n_configs out of domain (n_configs = 0 or n_configs < -2) are surfaced as
ValueError by `_get_config_num`. -/
theorem C4_error_kinds :
    (∀ n_jobs n_configs n_total ncpus : ℤ,
        (n_jobs = 0 ∨ n_configs = 0 ∨ n_configs < -2) →
        get_config_num n_jobs n_configs n_total ncpus = .error .valueError) ∧
    (∀ n_jobs n_configs n_total ncpus : ℤ, ∀ e,
        get_config_num n_jobs n_configs n_total ncpus = .error e → e = .valueError) ∧
    (∀ l_nrows r_nrows : ℕ, ∀ osize : ℤ, ∀ e,
        basic_checks l_nrows r_nrows osize = .error e → e = .assertionError) ∧
    (∀ lt rt cs os ac v : PyVal, ∀ e,
        validate_types lt rt cs os ac v = .error e → e = .assertionError) := by
  refine ⟨?_, ?_, ?_, ?_⟩
  · intro nj nc nt np h
    unfold get_config_num
    rw [if_pos h]
  · intro nj nc nt np e h
    have shape : ∀ (a b : ℤ) (e : ExcKind),
        (if a < b then (Except.ok a : Except ExcKind ℤ) else Except.ok b) ≠
          Except.error e := by
      intro a b e'
      split <;> simp
    unfold get_config_num at h
    split at h
    · exact (Except.error.inj h).symm
    · exact absurd h (shape _ _ _)
  · intro l r o e h
    unfold basic_checks at h
    split_ifs at h <;> exact (Except.error.inj h).symm
  · intro lt rt cs os ac v e h
    rcases validate_types_cases lt rt cs os ac v with hok | herr
    · rw [hok] at h
      exact absurd h (by simp)
    · rw [herr] at h
      exact (Except.error.inj h).symm

/-- Witness for C4's corrected claim at concrete inputs for each conjunct. -/
theorem C4_error_kinds_witness :
    get_config_num 0 1 5 4 = .error .valueError ∧
    ExcKind.valueError = ExcKind.valueError ∧
    ExcKind.assertionError = ExcKind.assertionError :=
  ⟨C4_error_kinds.1 0 1 5 4 (Or.inl rfl),
   C4_error_kinds.2.1 0 1 5 4 ExcKind.valueError rfl,
   C4_error_kinds.2.2.1 0 1 (-1) ExcKind.assertionError rfl⟩

/-- C1 counterexample: a record whose cell "a a a_1" already contains the
suffixed form a_1 makes the suffixing scheme emit the token string a_1
twice in one record, and the resulting tokens array 0,1,1 is not strictly
ascending after rank substitution and sorting. -/
theorem C1_counterexample :
    (get_tokenized_table
        (Table.mk 1 [("id", [Value.str ("0")]), ("val", [Value.str ("a a a_1")])])
        "id" [1]) = [[("a", 0), ("a_1", 0), ("a_1", 0)]] ∧
    ¬ ((([("a", 0), ("a_1", 0), ("a_1", 0)] : List (String × ℕ)).map Prod.fst).Nodup) ∧
    tokens_arrays
      (Table.mk 1 [("id", [Value.str ("0")]), ("val", [Value.str ("a a a_1")])])
      (Table.mk 1 [("id", [Value.str ("0")]), ("val", [Value.str ("a a a_1")])])
      "id" "id" [1] = [[0, 1, 1]] ∧
    ¬ List.Pairwise (fun a b : ℕ => a < b) [0, 1, 1] :=
  ⟨by decide, by decide, by decide, by decide⟩

/-- C1 (corrected): provided no original token of the selected fields
contains an underscore, the suffixing scheme yields pairwise distinct
token strings within each record, and consequently, after rank
substitution and sorting, each record's tokens array is strictly
ascending.  (Without that proviso an original token equal to an emitted
suffixed form, such as a_1, breaks distinctness.) -/
theorem C1_token_distinctness (lt rt : Table) (lkey rkey : String) (fl : List ℕ)
    (hfree : underscore_free_table lt fl) :
    (∀ rec ∈ get_tokenized_table lt lkey fl, (rec.map Prod.fst).Nodup) ∧
    (∀ arr ∈ tokens_arrays lt rt lkey rkey fl,
      List.Pairwise (fun a b : ℕ => a < b) arr) :=
  ⟨get_tokenized_table_nodup lt lkey fl hfree,
   tokens_arrays_strict lt rt lkey rkey fl hfree⟩

/-- Witness for C1's corrected claim on a 1-record table with cell "b a". -/
theorem C1_token_distinctness_witness :
    underscore_free_table
      (Table.mk 1 [("id", [Value.str ("0")]), ("val", [Value.str ("b a")])]) [1] ∧
    ((∀ rec ∈ get_tokenized_table
        (Table.mk 1 [("id", [Value.str ("0")]), ("val", [Value.str ("b a")])]) "id" [1],
        (rec.map Prod.fst).Nodup) ∧
     (∀ arr ∈ tokens_arrays
        (Table.mk 1 [("id", [Value.str ("0")]), ("val", [Value.str ("b a")])])
        (Table.mk 1 [("id", [Value.str ("0")]), ("val", [Value.str ("b a")])])
        "id" "id" [1],
        List.Pairwise (fun a b : ℕ => a < b) arr)) :=
  ⟨by decide,
   C1_token_distinctness
     (Table.mk 1 [("id", [Value.str ("0")]), ("val", [Value.str ("b a")])])
     (Table.mk 1 [("id", [Value.str ("0")]), ("val", [Value.str ("b a")])])
     "id" "id" [1] (by decide)⟩

/-- C2 counterexample: on the column [1 (numeric), "1" (string)] of a
2-row table, the code's weight (raw values: two distinct non-empty values)
is 2, while the weight computed after coercing numeric values to their
integer-rounded string form (as the claim states) is 3/2. -/
theorem C2_counterexample :
    get_feature_weight_col 2 [Value.num 1, Value.str ("1")] = 2 ∧
    spec_feature_weight_col 2 [Value.num 1, Value.str ("1")] = 3 / 2 ∧
    get_feature_weight_col 2 [Value.num 1, Value.str ("1")] ≠
      spec_feature_weight_col 2 [Value.num 1, Value.str ("1")] := by
  have hpr : pyRound 1 = 1 := by
    unfold pyRound
    rw [Int.fract_one, if_neg (by norm_num), round_one]
  have hrep : replace_nan_to_empty (Value.num 1) = "1" := by
    simp only [replace_nan_to_empty, hpr]
    rfl
  have h1 : get_feature_weight_col 2 [Value.num 1, Value.str ("1")] = 2 := by
    have hfil : ([Value.num 1, Value.str ("1")].filter nonEmptyVal) =
        [Value.num 1, Value.str ("1")] := rfl
    have hded : ([Value.num 1, Value.str ("1")].dedup) =
        [Value.num 1, Value.str ("1")] := rfl
    simp only [get_feature_weight_col, hfil, hded, List.length_cons, List.length_nil]
    norm_num
  have h2 : spec_feature_weight_col 2 [Value.num 1, Value.str ("1")] = 3 / 2 := by
    have hmap : [Value.num 1, Value.str ("1")].map replace_nan_to_empty =
        ["1", "1"] := by
      rw [List.map_cons, List.map_cons, List.map_nil, hrep]
      rfl
    have hfil : ((["1", "1"] : List String).filter fun s => !(s == "")) =
        ["1", "1"] := rfl
    have hded : (["1", "1"] : List String).dedup = ["1"] := rfl
    simp only [spec_feature_weight_col, hmap, hfil, hded, List.length_cons,
      List.length_nil]
    norm_num
  refine ⟨h1, h2, ?_⟩
  rw [h1, h2]
  norm_num

/-- C2 (corrected): the feature weight of a column equals
non_empty_ratio + selectivity, where emptiness and distinctness are
evaluated on the raw cell values (NaN and the empty string treated as
absent) — not on the integer-rounded string coercions; distinctness is the
cardinality of the set of raw non-empty values. -/
theorem C2_weight_formula (t : Table) (h : t.nrows ≠ 0) :
    get_feature_weight t =
      .ok (t.cols.map fun c =>
        ((c.2.filter nonEmptyVal).length : ℚ) / t.nrows +
        (if (c.2.filter nonEmptyVal).length = 0 then 0
         else ((c.2.filter nonEmptyVal).toFinset.card : ℚ) /
              (c.2.filter nonEmptyVal).length)) := by
  have hfun : ∀ c : String × List Value,
      get_feature_weight_col t.nrows c.2 =
        ((c.2.filter nonEmptyVal).length : ℚ) / t.nrows +
        (if (c.2.filter nonEmptyVal).length = 0 then 0
         else ((c.2.filter nonEmptyVal).toFinset.card : ℚ) /
              (c.2.filter nonEmptyVal).length) := by
    intro c
    unfold get_feature_weight_col
    rw [List.card_toFinset]
  unfold get_feature_weight
  rw [if_neg h]
  simp only [hfun]

/-- Witness for C2's corrected claim on a 1-row, 1-column table. -/
theorem C2_weight_formula_witness :
    (Table.mk 1 [("a", [Value.str ("x")])]).nrows ≠ 0 ∧
    get_feature_weight ⟨1, [("a", [Value.str ("x")])]⟩ =
      .ok ((Table.mk 1 [("a", [Value.str ("x")])]).cols.map fun c =>
        ((c.2.filter nonEmptyVal).length : ℚ) /
          (Table.mk 1 [("a", [Value.str ("x")])]).nrows +
        (if (c.2.filter nonEmptyVal).length = 0 then 0
         else ((c.2.filter nonEmptyVal).toFinset.card : ℚ) /
              (c.2.filter nonEmptyVal).length)) :=
  ⟨by decide, C2_weight_formula ⟨1, [("a", [Value.str ("x")])]⟩ (by decide)⟩

/-- C3 counterexample: with key pair ("k", "k") supplied by the user in a
non-final position, the filtered list does not end with the key pair, and
although every surviving pair other than the key pair is numeric on both
sides, the operation succeeds instead of failing. -/
theorem C3_counterexample :
    corres_pipeline (fun _ => false) (fun _ => false) "k" "k"
      (some [("k", "k"), ("k", "b")]) [] = .ok [("k", "k"), ("k", "b")] ∧
    ([("k", "k"), ("k", "b")] : List (String × String)).getLast? ≠ some ("k", "k") ∧
    (∀ p ∈ ([("k", "k"), ("k", "b")] : List (String × String)), p ≠ ("k", "k") →
      (fun _ => false : String → Bool) p.1 = false ∧
      (fun _ => false : String → Bool) p.2 = false) :=
  ⟨rfl, by decide, by decide⟩

/-- C3 (corrected): the filtered correspondence list always contains the
key pair (l_key, r_key); it is the last element whenever the key pair was
not already present in the raw correspondence list (the code appends it
only in that case); and the operation fails exactly when the raw list is
empty or the post-filter list is the single key pair. -/
theorem C3_key_pair_and_failure (lo ro : String → Bool) (lkey rkey : String)
    (attr : Option (List (String × String))) (auto : List (String × String)) :
    (∀ res, corres_pipeline lo ro lkey rkey attr auto = .ok res →
        (lkey, rkey) ∈ res ∧ res ≠ [(lkey, rkey)] ∧
        ((lkey, rkey) ∉ raw_corres attr auto → res.getLast? = some (lkey, rkey))) ∧
    (corres_pipeline lo ro lkey rkey attr auto = .error .assertionError ↔
        raw_corres attr auto = [] ∨
        corres_survivors lo ro lkey rkey
          (append_key_pair lkey rkey (raw_corres attr auto)) = [(lkey, rkey)]) := by
  have hpipe : corres_pipeline lo ro lkey rkey attr auto =
      (if raw_corres attr auto = [] then .error .assertionError
       else filter_corres_list lo ro lkey rkey
         (append_key_pair lkey rkey (raw_corres attr auto))) := by
    unfold corres_pipeline
    rw [get_field_correspondence_list_eq]
    split_ifs <;> rfl
  by_cases hraw : raw_corres attr auto = []
  · rw [hpipe, if_pos hraw]
    refine ⟨fun res h => absurd h (by simp), ?_⟩
    simp [hraw]
  · rw [hpipe, if_neg hraw]
    constructor
    · intro res h
      unfold filter_corres_list at h
      split_ifs at h with hc
      have hres : res = corres_survivors lo ro lkey rkey
          (append_key_pair lkey rkey (raw_corres attr auto)) :=
        (Except.ok.inj h).symm
      refine ⟨?_, ?_, ?_⟩
      · rw [hres]
        exact List.mem_filter.2 ⟨mem_append_key_pair _ _ _, corres_keep_key _ _ _ _⟩
      · rw [hres]
        intro he
        exact hc ((corres_cond_iff _ _).2 he)
      · intro hnotin
        have happ : append_key_pair lkey rkey (raw_corres attr auto) =
            raw_corres attr auto ++ [(lkey, rkey)] := by
          unfold append_key_pair
          rw [if_neg hnotin]
        rw [hres]
        unfold corres_survivors
        rw [happ, List.filter_append]
        have hkp : ([(lkey, rkey)] : List (String × String)).filter
            (corres_keep lo ro lkey rkey) = [(lkey, rkey)] := by
          simp [corres_keep_key]
        rw [hkp]
        exact List.getLast?_concat _
    · rw [filter_corres_error_iff]
      simp [hraw]

/-- Witness for C3's corrected claim: an appended key pair lands last, and
a list reduced to the single key pair makes the operation fail. -/
theorem C3_key_pair_and_failure_witness :
    (("k", "k") ∈ ([("a", "b"), ("k", "k")] : List (String × String))) ∧
    (([("a", "b"), ("k", "k")] : List (String × String)) ≠ [("k", "k")]) ∧
    (([("a", "b"), ("k", "k")] : List (String × String)).getLast? = some ("k", "k")) ∧
    corres_pipeline (fun _ => true) (fun _ => true) "k" "k" (some [("k", "k")]) [] =
      .error .assertionError := by
  have A := (C3_key_pair_and_failure (fun _ => true) (fun _ => true) "k" "k"
      (some [("a", "b")]) []).1 [("a", "b"), ("k", "k")] rfl
  exact ⟨A.1, A.2.1, A.2.2 (by decide),
    (C3_key_pair_and_failure (fun _ => true) (fun _ => true) "k" "k"
      (some [("k", "k")]) []).2.mpr (Or.inr (by decide))⟩

/-- C7 (confirmed): feature selection removes the key-column entry
(both entries, larger index first, when the two key positions differ),
sorts the remaining column indices descending by the product of the two
column weights, returns the first min(remaining, 8) indices — they are
valid non-key positions, duplicate-free, score-descending, and dominate
every unselected non-key position — and the operation fails when the
resulting list is empty. -/
theorem C7_select_features (lt rt : Table) (lkey rkey : String) :
    (∀ sel, select_features lt rt lkey rkey = .ok sel →
      sel.length = min (if (last_key_index lt.colNames lkey).toNat =
            (last_key_index rt.colNames rkey).toNat
          then lt.cols.length - 1 else lt.cols.length - 2) 8 ∧
      (last_key_index lt.colNames lkey).toNat ∉ sel ∧
      (last_key_index rt.colNames rkey).toNat ∉ sel ∧
      sel.Nodup ∧
      (∀ i ∈ sel, i < lt.cols.length) ∧
      List.Pairwise (fun i j => col_score lt rt j ≤ col_score lt rt i) sel ∧
      (∀ i ∈ sel, ∀ j, j < lt.cols.length → j ∉ sel →
        j ≠ (last_key_index lt.colNames lkey).toNat →
        j ≠ (last_key_index rt.colNames rkey).toNat →
        col_score lt rt j ≤ col_score lt rt i)) ∧
    (∀ fl : List ℕ, feature_list_guard fl = .error .assertionError ↔ fl = []) := by
  constructor
  · intro sel h
    unfold select_features at h
    have h1 : ¬ (lt.colNames.length ≠ rt.colNames.length) := by
      by_contra hc
      rw [if_pos hc] at h
      exact absurd h (by simp)
    rw [if_neg h1] at h
    have h2 : ¬ (last_key_index lt.colNames lkey < 0) := by
      by_contra hc
      rw [if_pos hc] at h
      exact absurd h (by simp)
    rw [if_neg h2] at h
    have h3 : ¬ (last_key_index rt.colNames rkey < 0) := by
      by_contra hc
      rw [if_pos hc] at h
      exact absurd h (by simp)
    rw [if_neg h3] at h
    have h4 : ¬ (lt.nrows = 0) := by
      by_contra hc
      rw [if_pos hc] at h
      exact absurd h (by simp)
    rw [if_neg h4] at h
    have h5 : ¬ (rt.nrows = 0) := by
      by_contra hc
      rw [if_pos hc] at h
      exact absurd h (by simp)
    rw [if_neg h5] at h
    have h6 : ¬ ((lt.cols.map fun c => get_feature_weight_col lt.nrows c.2).length ≠
        (rt.cols.map fun c => get_feature_weight_col rt.nrows c.2).length) := by
      by_contra hc
      rw [if_pos hc] at h
      exact absurd h (by simp)
    rw [if_neg h6] at h
    have hsel := (Except.ok.inj h).symm
    have hlw : (lt.cols.map fun c => get_feature_weight_col lt.nrows c.2).length =
        lt.cols.length := List.length_map _ _
    have hrwl : (rt.cols.map fun c => get_feature_weight_col rt.nrows c.2).length =
        rt.cols.length := List.length_map _ _
    have hcn_l : lt.colNames.length = lt.cols.length := List.length_map _ _
    have hcn_r : rt.colNames.length = rt.cols.length := List.length_map _ _
    have heq := not_ne_iff.1 h1
    have hncols : rt.cols.length = lt.cols.length := by omega
    have hLI : (last_key_index lt.colNames lkey).toNat < lt.cols.length := by
      have := last_key_index_toNat_lt _ _ h2
      omega
    have hRI : (last_key_index rt.colNames rkey).toNat < lt.cols.length := by
      have := last_key_index_toNat_lt _ _ h3
      omega
    have core := select_core (lt.cols.map fun c => get_feature_weight_col lt.nrows c.2)
        (rt.cols.map fun c => get_feature_weight_col rt.nrows c.2)
        (last_key_index lt.colNames lkey).toNat (last_key_index rt.colNames rkey).toNat
        (by rw [hlw]; exact hLI) (by rw [hlw]; exact hRI) sel (by exact hsel)
    have hscore : ∀ x, x < lt.cols.length →
        (lt.cols.map fun c => get_feature_weight_col lt.nrows c.2).getD x 0 *
        (rt.cols.map fun c => get_feature_weight_col rt.nrows c.2).getD x 0 =
          col_score lt rt x := by
      intro x hx
      have e1 : (lt.cols.map fun c => get_feature_weight_col lt.nrows c.2).getD x 0 =
          get_feature_weight_col lt.nrows ((lt.cols.getD x ("", [])).2) := by
        rw [List.getD_eq_getElem _ _ (by rw [hlw]; exact hx), List.getElem_map,
          List.getD_eq_getElem _ _ hx]
      have e2 : (rt.cols.map fun c => get_feature_weight_col rt.nrows c.2).getD x 0 =
          get_feature_weight_col rt.nrows ((rt.cols.getD x ("", [])).2) := by
        rw [List.getD_eq_getElem _ _ (by rw [hrwl, hncols]; exact hx), List.getElem_map,
          List.getD_eq_getElem _ _ (by rw [hncols]; exact hx)]
      unfold col_score
      rw [e1, e2]
    obtain ⟨c1, c2, c3, c4, c5, c6, c7⟩ := core
    refine ⟨?_, c2, c3, c4, ?_, ?_, ?_⟩
    · rw [c1, hlw]
    · intro i hi
      have := c5 i hi
      rwa [hlw] at this
    · refine List.Pairwise.imp_of_mem ?_ c6
      intro a b ha hb hab
      have hla : a < lt.cols.length := by
        have := c5 a ha
        rwa [hlw] at this
      have hlb : b < lt.cols.length := by
        have := c5 b hb
        rwa [hlw] at this
      rwa [hscore a hla, hscore b hlb] at hab
    · intro i hi j hj hjn hjl hjr
      have hli2 : i < lt.cols.length := by
        have := c5 i hi
        rwa [hlw] at this
      have := c7 i hi j (by rw [hlw]; exact hj) hjn hjl hjr
      rwa [hscore i hli2, hscore j hj] at this
  · intro fl
    unfold feature_list_guard
    split_ifs with hc
    · exact ⟨fun _ => List.length_eq_zero.1 hc, fun _ => rfl⟩
    · exact ⟨fun hh => absurd hh (by simp), fun he => absurd (by rw [he]; rfl) hc⟩

/-- Witness for C7 on a pair of 1-row tables with columns (id, name):
feature selection keeps exactly the non-key column, and the empty-list
guard fails. -/
theorem C7_select_features_witness :
    select_features (Table.mk 1 [("id", [Value.str ("r0")]), ("name", [Value.str ("x")])])
      (Table.mk 1 [("id", [Value.str ("s0")]), ("name", [Value.str ("y")])])
      "id" "id" = .ok [1] ∧
    ([1] : List ℕ).length =
      min ((Table.mk 1 [("id", [Value.str ("r0")]),
        ("name", [Value.str ("x")])]).cols.length - 1) 8 ∧
    feature_list_guard [] = .error .assertionError := by
  have A := (C7_select_features
      (Table.mk 1 [("id", [Value.str ("r0")]), ("name", [Value.str ("x")])])
      (Table.mk 1 [("id", [Value.str ("s0")]), ("name", [Value.str ("y")])])
      "id" "id")
  refine ⟨rfl, ?_, (A.2 []).2 rfl⟩
  have B := (A.1 [1] rfl).1
  exact B

/-- C6 (confirmed): the global token order assigns each distinct token
string a dense rank equal to its position in the list of all distinct
tokens sorted by ascending (accumulated frequency over both tables' record
token lists, then ascending lexicographic string); the vocabulary is
exactly the occurring tokens, the sorted list is strictly ascending in
(frequency, string), and the ranks are exactly the integers in
[0, |vocabulary|) with no gaps. -/
theorem C6_global_token_order (lrecs rrecs : List (List (String × ℕ))) :
    (∀ tok, tok ∈ global_token_list lrecs rrecs ↔ tok ∈ all_occurrences lrecs rrecs) ∧
    (global_token_list lrecs rrecs).Nodup ∧
    List.Pairwise (fun a b =>
      token_freq (all_occurrences lrecs rrecs) a <
        token_freq (all_occurrences lrecs rrecs) b ∨
      (token_freq (all_occurrences lrecs rrecs) a =
        token_freq (all_occurrences lrecs rrecs) b ∧ a < b))
      (global_token_list lrecs rrecs) ∧
    (∀ i (hi : i < (global_token_list lrecs rrecs).length),
      order_dict (global_token_list lrecs rrecs)
        ((global_token_list lrecs rrecs).get ⟨i, hi⟩) = i) ∧
    (global_token_list lrecs rrecs).map (order_dict (global_token_list lrecs rrecs)) =
      List.range (global_token_list lrecs rrecs).length :=
  ⟨mem_global_token_list lrecs rrecs,
   global_token_list_nodup lrecs rrecs,
   global_token_list_strict_sorted lrecs rrecs,
   fun i hi => order_dict_get _ (global_token_list_nodup lrecs rrecs) i hi,
   map_order_dict_eq_range _ (global_token_list_nodup lrecs rrecs)⟩

/-- C8 (confirmed): a candidate set with zero rows makes
`_index_candidate_set` return the empty mapping immediately, before the
metadata retrieval/validation step runs — even an erroring metadata step
cannot surface. -/
theorem C8_empty_candidate_set (meta_result : Except ExcKind Unit)
    (lmap rmap : Value → Option ℕ) :
    index_candidate_set [] meta_result lmap rmap = .ok [] := rfl

/-- C9 (confirmed): on an empty triple list `_assemble_topk_table` returns
the empty DataFrame before column names are assigned and before
candidate-set properties are set, so it carries none of the promised
columns. -/
theorem C9_empty_rec_list (ltable rtable : Table) (lkey rkey : String) :
    assemble_topk_table [] ltable rtable lkey rkey = ⟨[], [], none⟩ ∧
    "_id" ∉ (assemble_topk_table [] ltable rtable lkey rkey).colNames ∧
    (assemble_topk_table [] ltable rtable lkey rkey).candsetProps = none := by
  have h : assemble_topk_table [] ltable rtable lkey rkey = ⟨[], [], none⟩ := rfl
  refine ⟨h, ?_, by rw [h]⟩
  rw [h]
  exact List.not_mem_nil _

/-- C10 (confirmed): whenever `verbose` is not of type bool, the validation
stage of `debug_blocker` fails with an AssertionError before any table
processing. -/
theorem C10_verbose_not_bool (lt rt cs os ac v : PyVal) (h : v.isBool = false) :
    debug_blocker_checks lt rt cs os ac v = .error .assertionError := by
  unfold debug_blocker_checks
  rw [validate_types_verbose_err lt rt cs os ac v h]
  rfl

/-- Witness for C10 with verbose given as the integer 1. -/
theorem C10_verbose_not_bool_witness :
    PyVal.isBool (.pyInt 1) = false ∧
    debug_blocker_checks (.pyDataFrame ⟨1, []⟩) (.pyDataFrame ⟨1, []⟩)
      (.pyDataFrame ⟨0, []⟩) (.pyInt 200) .pyNone (.pyInt 1) =
      .error .assertionError :=
  ⟨rfl, C10_verbose_not_bool _ _ _ _ _ _ rfl⟩

end DebugBlocker
